import Mathlib

/-
Verification of the xray-archiver pipeline utilities and the host-to-company
mapping orchestrator, as a shallow embedding in Lean 4.

The embedding covers, from pipeline/util/util.go: the App data model and its
path derivation (AppDir, ApkPath, OutDir), the unpack entry point (Unpack),
the set utilities (UniqAppend, Dedup), the HTTP JSON helper (GetJSON) and the
geolocation lookup (GetHostGeoIP); and, from the mapper command, the
orchestration loop of its main function (mapperRun below).

Effectful Go code is embedded by making the environment explicit: filesystem
and network outcomes (stat results, request outcomes, DNS answers, decode
results) are parameters, and mutation of an App is explicit state passing.
-/

/-- Unit for maps in data.go (Go: `type Unit struct{}`). -/
structure Unit' where
deriving DecidableEq

/-- AppHostRecord holds app_host data from the xray DB. -/
structure AppHostRecord where
  ID : Int := 0
  HostNames : List String := []
deriving DecidableEq

/-- TrackerMapperRequest holds the data used in requests to the OxfordHCC
TrackerMapper API; its one field is the hostname list of the POST body. -/
structure TrackerMapperRequest where
  HostNames : List String := []
deriving DecidableEq

/-- TrackerMapperCompany holds the data requested from the OxfordHCC
TrackerMapper API. -/
structure TrackerMapperCompany where
  HostName : String := ""
  HostID : Int := 0
  CompanyName : String := ""
  CompanyID : Int := 0
  Locale : String := ""
  Categories : List String := []
deriving DecidableEq

/-- Permission Struct represents the permission information found in an APK. -/
structure Permission where
  ID : String := ""
  MaxSdkVer : String := ""
deriving DecidableEq

/-- App Struct for holding of information extracted from the APK. Go mutates
`UnpackDir` in place; here the mutating method returns the updated App. -/
structure App where
  DBID : Int := 0
  ID : String := ""
  Store : String := ""
  Region : String := ""
  Ver : String := ""
  Path : String := ""
  UnpackDir : String := ""
  Perms : List Permission := []
  Hosts : List String := []
  Packages : List String := []
  Icon : String := ""
  UsesReflect : Bool := false
deriving DecidableEq

/-- The configuration fields of util.Cfg that the embedded functions read. -/
structure Config where
  AppDir : String := ""
  UnpackDir : String := ""
deriving DecidableEq

/-- NewApp constructs a new app, initialising values based on the parameters
passed (Go: `NewApp`). -/
def NewApp (dbID : Int) (id store region ver : String) : App :=
  { DBID := dbID, ID := id, Store := store, Region := region, Ver := ver }

/-- AppByPath returns an App object with the Path value initialised. -/
def AppByPath (path : String) : App :=
  { Path := path }

/-- Auxiliary join of path components already known to be nonempty: the
components separated by "/". -/
def joinNonempty : List String → String
  | [] => ""
  | [x] => x
  | x :: xs => x ++ "/" ++ joinNonempty xs

/-- Model of Go `path.Join`: empty components are dropped and the rest joined
with "/" (the further Clean normalization of "." and ".." segments inside a
component is not exercised by any embedded call and is elided). -/
def pathJoin (elems : List String) : String :=
  joinNonempty (elems.filter (fun s => s ≠ ""))

/-- Model of Go `path.Dir`: the path up to the last "/" ("." when there is
none). Only reached from AppDir when an explicit Path is set, a branch no
claim exercises; Clean normalization is elided as in pathJoin. -/
def pathDir (p : String) : String :=
  let parts := (p.splitOn "/").dropLast
  if parts.isEmpty then "." else joinNonempty (parts.filter (fun s => s ≠ ""))

/-- AppDir returns the directory of the apk and other misc files (Go:
`(app *App) AppDir`). -/
def App.AppDir (cfg : Config) (app : App) : String :=
  if app.Path ≠ "" then pathDir app.Path
  else pathJoin [cfg.AppDir, app.ID, app.Store, app.Region, app.Ver]

/-- ApkPath creates a string that represents the location of the APK on disk
(Go: `(app *App) ApkPath`). -/
def App.ApkPath (cfg : Config) (app : App) : String :=
  if app.Path ≠ "" then app.Path
  else pathJoin [app.AppDir cfg, app.ID ++ ".apk"]

/-- OutDir specifies where Apps should be unpacked to (Go: `(app *App)
OutDir`). `tempDirName` stands for the fresh name returned by
`ioutil.TempDir` in the explicit-path branch; directory creation either
succeeds or `log.Fatal` ends the process, so only returning executions are
modelled. The result pairs the returned path with the updated App (Go
records the computed path in `app.UnpackDir`). -/
def App.OutDir (cfg : Config) (tempDirName : String) (app : App) : String × App :=
  if app.UnpackDir = "" then
    if app.Path ≠ "" then
      (tempDirName, { app with UnpackDir := tempDirName })
    else
      let d := pathJoin [cfg.UnpackDir, app.ID, app.Store, app.Region, app.Ver]
      (d, { app with UnpackDir := d })
  else (app.UnpackDir, app)

/-- Result of the `os.Stat` call on the apk path: success, an error for which
`os.IsNotExist` holds, or any other stat error. -/
inductive StatResult where
  | ok
  | notExist (msg : String)
  | otherErr (msg : String)
deriving DecidableEq

/-- The errors Unpack can return, one constructor per `return` site: the stat
error itself when the file does not exist, the wrapped "couldnt open apk"
error otherwise, `os.ErrPermission` for mkdir/chtimes failures, and the
combined-output error on non-zero exit of apktool. -/
inductive UnpackError where
  | statNotExist (msg : String)
  | couldntOpenApk (apkPath msg : String)
  | errPermission
  | cmdFailed (msg : String)
deriving DecidableEq

/-- The filesystem and subprocess outcomes one Unpack call observes:
the stat result, success of `os.MkdirAll` and `os.Chtimes`, the error of
`cmd.CombinedOutput` when apktool exits non-zero, and the combined
stdout/stderr output of the subprocess. -/
structure UnpackEnv where
  stat : StatResult := .ok
  mkdirOk : Bool := true
  chtimesOk : Bool := true
  cmdErr : Option String := none
  cmdOutput : String := ""
deriving DecidableEq

/-- Unpack passes an app to apktool to disassemble an APK (Go: `(app *App)
Unpack`). The Go code first computes `app.ApkPath()` and `app.OutDir()`
(the latter mutating the App), then validates the apk file, prepares the
output directory and runs apktool; the error of each exit path is embedded
verbatim, with the non-zero-exit error message built exactly as the Go
format string "%s unpacking apk; output below:\n%s" builds it. -/
def App.Unpack (cfg : Config) (tempDirName : String) (env : UnpackEnv) (app : App) :
    Option UnpackError × App :=
  let apkPath := app.ApkPath cfg
  let app1 := (app.OutDir cfg tempDirName).2
  match env.stat with
  | .notExist m => (some (.statNotExist m), app1)
  | .otherErr m => (some (.couldntOpenApk apkPath m), app1)
  | .ok =>
    if ¬ env.mkdirOk then (some .errPermission, app1)
    else if ¬ env.chtimesOk then (some .errPermission, app1)
    else
      match env.cmdErr with
      | some e => (some (.cmdFailed (e ++ " unpacking apk; output below:\n" ++ env.cmdOutput)), app1)
      | none => (none, app1)

/-- UniqAppend takes the contents of one array and adds any content not
present in another array (Go: `UniqAppend`). The Go loop starts from a copy
of `a` and, for each element of `b`, scans `a` (not the accumulator) for an
equal element, appending when none is found. -/
def UniqAppend (a b : List String) : List String :=
  b.foldl (fun ret be => if a.contains be then ret else ret ++ [be]) a

/-- Inner loop of Dedup (Go: the `j` loop). `a[i] == a[j]` triggers
`a[j] = a[length]; a = a[:length]; length--; j--` which, with the loop
increment, re-examines index `j` on the shrunk slice; Go maintains
`length = len(a) - 1`, so the loop condition `j <= length` is `j < len a`. -/
def dedupInner (a : List String) (i j : Nat) : List String :=
  if h : j < a.length then
    if a.getD i "" = a.getD j "" then
      dedupInner ((a.set j (a.getD (a.length - 1) "")).dropLast) i j
    else
      dedupInner a i (j + 1)
  else a
termination_by a.length - j
decreasing_by
  · simp only [List.length_dropLast, List.length_set]; omega
  · omega

/-- The inner loop never lengthens the slice; dedupOuter needs this for its
termination measure. -/
theorem dedupInner_length_le (a : List String) (i j : Nat) :
    (dedupInner a i j).length ≤ a.length := by
  induction a, i, j using dedupInner.induct with
  | case1 a i j h heq ih =>
    rw [dedupInner, dif_pos h, if_pos heq]
    refine le_trans ih ?_
    simp only [List.length_dropLast, List.length_set]
    omega
  | case2 a i j h heq ih =>
    rw [dedupInner, dif_pos h, if_neg heq]
    exact ih
  | case3 a i j h =>
    rw [dedupInner, dif_neg h]

/-- Outer loop of Dedup (Go: the `i` loop); the condition `i < length` is
`i < len a - 1` on the current slice. -/
def dedupOuter (a : List String) (i : Nat) : List String :=
  if h : i < a.length - 1 then
    dedupOuter (dedupInner a i (i + 1)) (i + 1)
  else a
termination_by a.length - i
decreasing_by
  have := dedupInner_length_le a i (i + 1)
  omega

/-- Dedup deduplicates a slice (Go: `Dedup`). -/
def Dedup (a : List String) : List String :=
  dedupOuter a 0

/-- A response, as the decoding code observes it: its HTTP status code and
the result of decoding its body into the target (`none` on decode failure).
The body of the Go response is a connection that must be closed. -/
structure HTTPResponse (α : Type) where
  StatusCode : Nat
  decodeResult : Option α

/-- The errors GetJSON can return, one per `return` site: the error of
`client.Get`, the formatted non-200-status error, and a decode error. -/
inductive GetJSONError where
  | connErr (msg : String)
  | statusErr (code : Nat)
  | decodeErr
deriving DecidableEq

/-- GetJSON from valid url string gets json (Go: `GetJSON`). The connection
attempt either fails (`.error msg`) or yields a response. The second
component of the result records whether the response body was closed before
returning: the Go code registers `defer r.Body.Close()` only after the
non-200 early return, so that path returns with the body still open. -/
def GetJSON {α : Type} (conn : Except String (HTTPResponse α)) :
    Except GetJSONError α × Bool :=
  match conn with
  | .error m => (.error (.connErr m), false)
  | .ok r =>
    if r.StatusCode ≠ 200 then (.error (.statusErr r.StatusCode), false)
    else
      match r.decodeResult with
      | some v => (.ok v, true)
      | none => (.error .decodeErr, true)

/-- GeoIPInfo stores apphosts data for geolocation. Latitude and Longitude
are float64 in the source; the embedding carries them as integers since no
embedded code computes with them. -/
structure GeoIPInfo where
  IP : String := ""
  CountryCode : String := ""
  CountryName : String := ""
  RegionCode : String := ""
  RegionName : String := ""
  City : String := ""
  ZipCode : String := ""
  TimeZone : String := ""
  Latitude : Int := 0
  Longitude : Int := 0
  MetroCode : Int := 0
deriving DecidableEq

/-- GetHostGeoIP grabs geo location information from hostname (Go:
`GetHostGeoIP`). `dns` is the outcome of `net.LookupHost`; `conn` gives, per
resolved address, the connection outcome of the GET issued by the nested
GetJSON call. The pair mirrors the Go `([]GeoIPInfo, error)` result: on DNS
failure `(none, some err)` embeds `(nil, err)`; otherwise the addresses are
looked up in order, a failed lookup is logged and skipped, and the partial
list is returned with a nil error. -/
def GetHostGeoIP (dns : Except String (List String))
    (conn : String → Except String (HTTPResponse GeoIPInfo)) :
    Option (List GeoIPInfo) × Option String :=
  match dns with
  | .error e => (none, some e)
  | .ok hosts =>
    (some (hosts.foldl (fun ret h =>
      match (GetJSON (conn h)).1 with
      | .error _ => ret
      | .ok inf => ret ++ [inf]) []), none)

/-- Outcome of one `client.Do` call in the mapper main loop: a network-level
error (nil response), or a response with its status code and the result of
decoding its body as a TrackerMapperCompany. -/
inductive ReqOutcome where
  | netErr
  | resp (status : Nat) (decodeResult : Option TrackerMapperCompany)
deriving DecidableEq

/-- Observable events of the mapper main loop: a POST request carrying a
hostname list, the two logged errors, and the debug log of a decoded
company. -/
inductive MapperEvent where
  | request (hostNames : List String)
  | clientErr
  | decodeErr
  | companyDebug (companyName hostName : String)
deriving DecidableEq

/-- One iteration of the per-hostname loop of the mapper main function. The
request always carries the full (un-deduplicated) hostname list of the app
record. On a network-level error the code logs the client error and then
evaluates `resp.Body` on the nil response, which panics: the Bool records
that the run aborts there. The status code is never inspected; the body is
decoded unconditionally, a decode failure is logged, and a decoded company
is logged at debug level. -/
def mapperHostStep (fullList : List String) (o : ReqOutcome) : List MapperEvent × Bool :=
  match o with
  | .netErr => ([.request fullList, .clientErr], true)
  | .resp _ none => ([.request fullList, .decodeErr], false)
  | .resp _ (some c) => ([.request fullList, .companyDebug c.CompanyName c.HostName], false)

/-- The per-hostname loop of the mapper main function over the remaining
loop indices, threading the request counter `k` into the oracle of request
outcomes. Returns the emitted events, whether the run panicked, and the next
request counter. -/
def runHosts (fullList : List String) (oracle : Nat → ReqOutcome) :
    List String → Nat → List MapperEvent × Bool × Nat
  | [], k => ([], false, k)
  | _ :: rest, k =>
    let step := mapperHostStep fullList (oracle k)
    if step.2 then (step.1, true, k + 1)
    else
      let next := runHosts fullList oracle rest (k + 1)
      (step.1 ++ next.1, next.2.1, next.2.2)

/-- The per-app loop of the mapper main function: each app record
contributes its hostname list, and its hosts are processed in order until
done or panicked. -/
def runApps (oracle : Nat → ReqOutcome) :
    List (List String) → Nat → List MapperEvent × Bool × Nat
  | [], k => ([], false, k)
  | hosts :: rest, k =>
    let this_ := runHosts hosts oracle hosts k
    if this_.2.1 then (this_.1, true, this_.2.2)
    else
      let next := runApps oracle rest this_.2.2
      (this_.1 ++ next.1, next.2.1, next.2.2)

/-- The mapper main orchestration loop over the enumerated app host records
(Go: `main` of the mapper command): the emitted event trace and whether the
run aborted by panic before completing the full pass. -/
def mapperRun (apps : List (List String)) (oracle : Nat → ReqOutcome) :
    List MapperEvent × Bool :=
  let r := runApps oracle apps 0
  (r.1, r.2.1)

/-- The POST request bodies of an event trace, in order. -/
def requestsOf (evs : List MapperEvent) : List (List String) :=
  evs.filterMap (fun e =>
    match e with
    | .request hs => some hs
    | _ => none)

/-- A string of length zero is the empty string. -/
theorem string_eq_empty_of_length (s : String) (h : s.length = 0) : s = "" := by
  cases s with
  | mk data =>
    cases data with
    | nil => rfl
    | cons c cs => simp [String.length] at h

/-- Joining a nonempty-headed list of nonempty components yields a nonempty
string. -/
theorem joinNonempty_ne_empty (x : String) (xs : List String) (hx : x ≠ "") :
    joinNonempty (x :: xs) ≠ "" := by
  cases xs with
  | nil => simpa [joinNonempty] using hx
  | cons y ys =>
    show x ++ "/" ++ joinNonempty (y :: ys) ≠ ""
    intro hc
    have hlen := congrArg String.length hc
    simp only [String.length_append] at hlen
    have h1 : ("/" : String).length = 1 := rfl
    have h0 : ("" : String).length = 0 := rfl
    have hx0 : x.length = 0 := by omega
    exact hx (string_eq_empty_of_length x hx0)

/-- Appending one component to a nonempty join inserts one separator. -/
theorem joinNonempty_append (x : String) (m : List String) (hm : m ≠ []) :
    joinNonempty (m ++ [x]) = joinNonempty m ++ "/" ++ x := by
  induction m with
  | nil => exact absurd rfl hm
  | cons y ys ih =>
    cases ys with
    | nil => rfl
    | cons z zs =>
      show y ++ "/" ++ joinNonempty ((z :: zs) ++ [x]) = y ++ "/" ++ joinNonempty (z :: zs) ++ "/" ++ x
      rw [ih (by simp)]
      simp [String.append_assoc]

/-- pathJoin of a flattened list equals pathJoin of the pre-joined prefix
with one further nonempty component. -/
theorem pathJoin_snoc (l : List String) (x : String) (hx : x ≠ "") :
    pathJoin [pathJoin l, x] = pathJoin (l ++ [x]) := by
  unfold pathJoin
  rw [List.filter_append]
  have hxf : List.filter (fun s => decide (s ≠ "")) [x] = [x] := by
    simp [List.filter_cons, hx]
  rw [hxf]
  cases hfl : List.filter (fun s => decide (s ≠ "")) l with
  | nil =>
    simp [joinNonempty, List.filter_cons, hx]
  | cons h t =>
    have hh : h ≠ "" := by
      have hmem : h ∈ List.filter (fun s => decide (s ≠ "")) l := by rw [hfl]; exact List.mem_cons_self _ _
      have := List.of_mem_filter hmem
      simpa using this
    have hne : joinNonempty (h :: t) ≠ "" := joinNonempty_ne_empty h t hh
    have : List.filter (fun s => decide (s ≠ "")) [joinNonempty (h :: t), x] = [joinNonempty (h :: t), x] := by
      simp [List.filter_cons, hne, hx]
    rw [this, joinNonempty_append x (h :: t) (by simp)]
    rfl

/-- pathJoin with a nonempty first component is nonempty. -/
theorem pathJoin_cons_ne_empty (x : String) (xs : List String) (hx : x ≠ "") :
    pathJoin (x :: xs) ≠ "" := by
  unfold pathJoin
  rw [List.filter_cons, if_pos (by simpa using hx)]
  exact joinNonempty_ne_empty _ _ hx

/-- A string extended by the nonempty suffix ".apk" is nonempty. -/
theorem append_apk_ne_empty (s : String) : s ++ ".apk" ≠ "" := by
  intro hc
  have := congrArg String.length hc
  simp only [String.length_append] at this
  have h4 : (".apk" : String).length = 4 := rfl
  have h0 : ("" : String).length = 0 := rfl
  omega

/-- Claim C6: ApkPath is a pure, error-free function: when an explicit path
was supplied at construction it is returned unchanged, and otherwise the
result is the composition base/id/store/region/version/id.apk of the
identity fields under the configured app directory. -/
theorem apkPath_spec (cfg : Config) (app : App) :
    (app.Path ≠ "" → app.ApkPath cfg = app.Path) ∧
    (app.Path = "" → app.ApkPath cfg =
      pathJoin [cfg.AppDir, app.ID, app.Store, app.Region, app.Ver, app.ID ++ ".apk"]) := by
  constructor
  · intro h
    simp [App.ApkPath, h]
  · intro h
    have hstep := pathJoin_snoc [cfg.AppDir, app.ID, app.Store, app.Region, app.Ver]
      (app.ID ++ ".apk") (append_apk_ne_empty app.ID)
    simp only [App.ApkPath, App.AppDir, h]
    simpa using hstep

/-- Witness for C6 at concrete inputs: an explicit-path App returns its path
unchanged, and an identity-based App composes the full apk path. -/
theorem apkPath_spec_witness :
    (AppByPath "/tmp/x.apk").ApkPath { AppDir := "/data/apps", UnpackDir := "/unp" } = "/tmp/x.apk" ∧
    (NewApp 1 "app1" "play" "us" "1.0").ApkPath { AppDir := "/data/apps", UnpackDir := "/unp" }
      = "/data/apps/app1/play/us/1.0/app1.apk" := by
  constructor
  · exact (apkPath_spec _ _).1 (by decide)
  · exact ((apkPath_spec { AppDir := "/data/apps", UnpackDir := "/unp" }
      (NewApp 1 "app1" "play" "us" "1.0")).2 rfl).trans (by rfl)

/-- Claim C7: the unpack directory is computed at most once. A call on an App
whose UnpackDir is already recorded returns it without recomputation; on an
identity-constructed App (no explicit path, nonempty configured unpack root)
the first call records a directory that is a deterministic function of the
identity fields, and every subsequent call returns that same recorded pair,
whatever the temp-dir allocator would have produced. -/
theorem outDir_spec :
    (∀ (cfg : Config) (t : String) (app : App), app.UnpackDir ≠ "" →
      app.OutDir cfg t = (app.UnpackDir, app)) ∧
    (∀ (cfg : Config) (t t2 : String) (app : App),
      app.UnpackDir = "" → app.Path = "" → cfg.UnpackDir ≠ "" →
      (app.OutDir cfg t).1 = pathJoin [cfg.UnpackDir, app.ID, app.Store, app.Region, app.Ver] ∧
      (app.OutDir cfg t).2.UnpackDir = (app.OutDir cfg t).1 ∧
      (app.OutDir cfg t).2.OutDir cfg t2 = app.OutDir cfg t) := by
  constructor
  · intro cfg t app h
    simp [App.OutDir, h]
  · intro cfg t t2 app hu hp hc
    have hfirst : app.OutDir cfg t =
        (pathJoin [cfg.UnpackDir, app.ID, app.Store, app.Region, app.Ver],
         { app with UnpackDir := pathJoin [cfg.UnpackDir, app.ID, app.Store, app.Region, app.Ver] }) := by
      simp [App.OutDir, hu, hp]
    have hne : pathJoin [cfg.UnpackDir, app.ID, app.Store, app.Region, app.Ver] ≠ "" :=
      pathJoin_cons_ne_empty cfg.UnpackDir _ hc
    refine ⟨by rw [hfirst], by rw [hfirst], ?_⟩
    rw [hfirst]
    simp [App.OutDir, hne]

/-- Witness for C7 at a concrete identity-constructed App: the first call
returns the composed directory and a second call with a different temp-dir
outcome returns the identical pair. -/
theorem outDir_spec_witness :
    ((NewApp 1 "a" "s" "r" "v").OutDir { AppDir := "", UnpackDir := "/unp" } "tmp1").1 = "/unp/a/s/r/v" ∧
    ((NewApp 1 "a" "s" "r" "v").OutDir { AppDir := "", UnpackDir := "/unp" } "tmp1").2.OutDir
        { AppDir := "", UnpackDir := "/unp" } "tmp2"
      = (NewApp 1 "a" "s" "r" "v").OutDir { AppDir := "", UnpackDir := "/unp" } "tmp1" := by
  have h := outDir_spec.2 { AppDir := "", UnpackDir := "/unp" } "tmp1" "tmp2"
    (NewApp 1 "a" "s" "r" "v") rfl rfl (by decide)
  exact ⟨h.1.trans (by rfl), h.2.2⟩

/-- Claim C8: Unpack distinguishes the two stat-validation error kinds (the
not-found error returned as-is, and the distinct wrapped could-not-open
error), and on non-zero exit of the external disassembler it returns an
error whose message ends with the combined stdout/stderr output of the
subprocess. -/
theorem unpack_spec (cfg : Config) (t : String) (env : UnpackEnv) (app : App) :
    (∀ m, env.stat = .notExist m →
      (App.Unpack cfg t env app).1 = some (.statNotExist m)) ∧
    (∀ m, env.stat = .otherErr m →
      (App.Unpack cfg t env app).1 = some (.couldntOpenApk (app.ApkPath cfg) m)) ∧
    (∀ m m2 p, UnpackError.statNotExist m ≠ UnpackError.couldntOpenApk p m2) ∧
    (∀ e, env.stat = .ok → env.mkdirOk = true → env.chtimesOk = true →
      env.cmdErr = some e →
      ∃ pre, (App.Unpack cfg t env app).1 = some (.cmdFailed (pre ++ env.cmdOutput))) := by
  refine ⟨?_, ?_, ?_, ?_⟩
  · intro m h
    simp [App.Unpack, h]
  · intro m h
    simp [App.Unpack, h]
  · intro m m2 p hc
    cases hc
  · intro e hs hm hc he
    refine ⟨e ++ " unpacking apk; output below:\n", ?_⟩
    simp [App.Unpack, hs, hm, hc, he, String.append_assoc]

/-- Witness for C8 at concrete environments: a missing apk yields the raw
not-found error, an unreadable apk yields the wrapped open error, and a
failed apktool run yields an error carrying the combined output. -/
theorem unpack_spec_witness :
    (App.Unpack { AppDir := "/d", UnpackDir := "/u" } "t" { stat := .notExist "gone" } (NewApp 1 "a" "s" "r" "v")).1
      = some (.statNotExist "gone") ∧
    (App.Unpack { AppDir := "/d", UnpackDir := "/u" } "t" { stat := .otherErr "locked" } (NewApp 1 "a" "s" "r" "v")).1
      = some (.couldntOpenApk "/d/a/s/r/v/a.apk" "locked") ∧
    (∃ pre, (App.Unpack { AppDir := "/d", UnpackDir := "/u" } "t"
        { cmdErr := some "exit status 1", cmdOutput := "apktool blew up" } (NewApp 1 "a" "s" "r" "v")).1
      = some (.cmdFailed (pre ++ "apktool blew up"))) := by
  refine ⟨?_, ?_, ?_⟩
  · exact (unpack_spec _ _ _ _).1 "gone" rfl
  · exact ((unpack_spec _ _ _ _).2.1 "locked" rfl).trans (by rfl)
  · exact (unpack_spec _ _ _ _).2.2.2 "exit status 1" rfl rfl rfl rfl

/-- Claim C9 (code bug evaluation): when the connection succeeds but the
status is 500, GetJSON takes the non-200 early return, which runs before
`defer r.Body.Close()` is registered: the call returns the status error with
the response body still open. -/
theorem getJSON_leaks_body_on_non200 :
    GetJSON (Except.ok ({ StatusCode := 500, decodeResult := some 0 } : HTTPResponse Nat))
      = (Except.error (GetJSONError.statusErr 500), false) := rfl

/-- The geolocation accumulation loop, started from any accumulator, appends
exactly the successfully looked-up addresses in order. -/
theorem geo_foldl (conn : String → Except String (HTTPResponse GeoIPInfo)) :
    ∀ (hosts : List String) (acc : List GeoIPInfo),
      hosts.foldl (fun ret h =>
        match (GetJSON (conn h)).1 with
        | .error _ => ret
        | .ok inf => ret ++ [inf]) acc
      = acc ++ hosts.filterMap (fun h => ((GetJSON (conn h)).1).toOption) := by
  intro hosts
  induction hosts with
  | nil => intro acc; simp
  | cons h rest ih =>
    intro acc
    simp only [List.foldl_cons, List.filterMap_cons]
    cases hg : (GetJSON (conn h)).1 with
    | error e => simp [hg, ih, Except.toOption]
    | ok inf => simp [hg, ih, Except.toOption]

/-- Claim C10: a DNS failure makes GetHostGeoIP return a nil list with the
DNS error (total failure); after successful resolution, per-address lookup
failures are tolerated: the failed addresses are omitted and the partial
list is returned with a nil error. -/
theorem getHostGeoIP_spec (dns : Except String (List String))
    (conn : String → Except String (HTTPResponse GeoIPInfo)) :
    (∀ e, dns = .error e → GetHostGeoIP dns conn = (none, some e)) ∧
    (∀ hosts, dns = .ok hosts →
      GetHostGeoIP dns conn =
        (some (hosts.filterMap (fun h => ((GetJSON (conn h)).1).toOption)), none)) := by
  constructor
  · intro e h
    simp [GetHostGeoIP, h]
  · intro hosts h
    simp only [GetHostGeoIP, h]
    rw [geo_foldl conn hosts []]
    simp

/-- Witness for C10 at concrete inputs: a DNS error is returned as the total
failure, and with two resolved addresses of which one lookup fails, the call
returns the one-element partial list and a nil error. -/
theorem getHostGeoIP_spec_witness :
    GetHostGeoIP (.error "no such host")
        (fun _ => .error "unreachable") = (none, some "no such host") ∧
    GetHostGeoIP (.ok ["1.2.3.4", "5.6.7.8"])
        (fun h => if h = "1.2.3.4" then .ok { StatusCode := 200, decodeResult := some { IP := "1.2.3.4" } }
                  else .error "connection refused")
      = (some [{ IP := "1.2.3.4" }], none) := by
  constructor
  · exact (getHostGeoIP_spec _ _).1 "no such host" rfl
  · exact ((getHostGeoIP_spec _ _).2 ["1.2.3.4", "5.6.7.8"] rfl).trans (by rfl)

/-- Claim C1 (code bug evaluation): a single app with one hostname whose
attribution request fails at network level. The orchestrator issues the
request and logs the client error, but then panics dereferencing the nil
response, aborting the run before completing the pass. -/
theorem mapper_aborts_on_network_failure :
    mapperRun [["x.com"]] (fun _ => ReqOutcome.netErr)
      = ([MapperEvent.request ["x.com"], MapperEvent.clientErr], true) := rfl

/-- Counterexample to claim C2 at the input of its scenario: an app record
with hostnames a.com, b.com, a.com produces three requests, not two, and
every request body is the full un-deduplicated list. -/
theorem mapper_requests_counterexample :
    requestsOf (mapperRun [["a.com", "b.com", "a.com"]]
        (fun _ => ReqOutcome.resp 200 (some {}))).1
      = [["a.com", "b.com", "a.com"], ["a.com", "b.com", "a.com"], ["a.com", "b.com", "a.com"]] ∧
    (requestsOf (mapperRun [["a.com", "b.com", "a.com"]]
        (fun _ => ReqOutcome.resp 200 (some {}))).1).length ≠ 2 := by
  exact ⟨rfl, by decide⟩

/-- requestsOf distributes over trace concatenation. -/
theorem requestsOf_append (a b : List MapperEvent) :
    requestsOf (a ++ b) = requestsOf a ++ requestsOf b :=
  List.filterMap_append a b _

/-- The per-hostname loop, absent network-level failures, emits exactly one
request per hostname occurrence, each carrying the full record list, and
never panics. -/
theorem runHosts_requests (full : List String) (oracle : Nat → ReqOutcome)
    (h : ∀ k, oracle k ≠ ReqOutcome.netErr) :
    ∀ (l : List String) (k : Nat),
      requestsOf (runHosts full oracle l k).1 = l.map (fun _ => full) ∧
      (runHosts full oracle l k).2.1 = false := by
  intro l
  induction l with
  | nil => intro k; exact ⟨rfl, rfl⟩
  | cons x rest ih =>
    intro k
    obtain ⟨ih1, ih2⟩ := ih (k + 1)
    cases ho : oracle k with
    | netErr => exact absurd ho (h k)
    | resp s d =>
      cases d with
      | none =>
        have hrun : runHosts full oracle (x :: rest) k =
            ([MapperEvent.request full, MapperEvent.decodeErr] ++ (runHosts full oracle rest (k + 1)).1,
             (runHosts full oracle rest (k + 1)).2.1, (runHosts full oracle rest (k + 1)).2.2) := by
          simp [runHosts, mapperHostStep, ho]
        rw [hrun]
        refine ⟨?_, ih2⟩
        rw [requestsOf_append, ih1]
        rfl
      | some c =>
        have hrun : runHosts full oracle (x :: rest) k =
            ([MapperEvent.request full, MapperEvent.companyDebug c.CompanyName c.HostName]
               ++ (runHosts full oracle rest (k + 1)).1,
             (runHosts full oracle rest (k + 1)).2.1, (runHosts full oracle rest (k + 1)).2.2) := by
          simp [runHosts, mapperHostStep, ho]
        rw [hrun]
        refine ⟨?_, ih2⟩
        rw [requestsOf_append, ih1]
        rfl

/-- Claim C2 as amended: the hostname list of an app record is NOT
deduplicated before dispatch; the orchestrator issues one request per
hostname occurrence (duplicates included) and every request carries the
full recorded hostname list, so a record with hostnames a.com, b.com, a.com
yields three requests whose bodies are all the full triple. -/
theorem mapper_requests_spec (hosts : List String) (oracle : Nat → ReqOutcome)
    (h : ∀ k, oracle k ≠ ReqOutcome.netErr) :
    requestsOf (mapperRun [hosts] oracle).1 = hosts.map (fun _ => hosts) := by
  have hr := runHosts_requests hosts oracle h hosts 0
  have hrun : mapperRun [hosts] oracle = ((runHosts hosts oracle hosts 0).1, false) := by
    simp [mapperRun, runApps, hr.2]
  rw [hrun]
  exact hr.1

/-- Witness for the amended C2 at the scenario input with an oracle that
always returns a decodable 200 response. -/
theorem mapper_requests_spec_witness :
    requestsOf (mapperRun [["a.com", "b.com", "a.com"]]
        (fun _ => ReqOutcome.resp 200 none)).1
      = [["a.com", "b.com", "a.com"], ["a.com", "b.com", "a.com"], ["a.com", "b.com", "a.com"]] := by
  have h := mapper_requests_spec ["a.com", "b.com", "a.com"]
    (fun _ => ReqOutcome.resp 200 none) (fun k hc => ReqOutcome.noConfusion hc)
  exact h.trans (by rfl)

/-- Bridge between the Bool membership scan of the Go loop and list
membership. -/
theorem contains_iff (a : List String) (x : String) : a.contains x = true ↔ x ∈ a :=
  List.elem_iff

/-- Closed form of the UniqAppend loop from any accumulator: the accumulator
followed by the elements of `b` that do not occur in `a`. -/
theorem uniqAppend_closed (a : List String) : ∀ (b acc : List String),
    b.foldl (fun ret be => if a.contains be then ret else ret ++ [be]) acc
      = acc ++ b.filter (fun e => !(a.contains e)) := by
  intro b
  induction b with
  | nil => intro acc; simp
  | cons e rest ih =>
    intro acc
    rw [List.foldl_cons, List.filter_cons]
    cases hc : a.contains e with
    | false =>
      rw [if_neg (show ¬(false = true) by decide),
          if_pos (show (!false) = true by decide), ih]
      simp
    | true =>
      rw [if_pos (show true = true from rfl),
          if_neg (show ¬((!true) = true) by decide), ih]

/-- Counterexample to claim C3 as stated: with a = [] and b = [x, x] the
result keeps both copies, so it is not duplicate-free. -/
theorem uniqAppend_counterexample :
    UniqAppend [] ["x", "x"] = ["x", "x"] ∧ ¬ (UniqAppend [] ["x", "x"]).Nodup := by
  exact ⟨rfl, by decide⟩

/-- Claim C3 as amended: UniqAppend returns a followed by the elements of b
not occurring in a, in residual order; its element set is exactly the union
of the two element sets; and when a and b are each duplicate-free the result
is duplicate-free with length between max of the lengths and their sum. -/
theorem uniqAppend_spec (a b : List String) :
    UniqAppend a b = a ++ b.filter (fun e => !(a.contains e)) ∧
    (∀ x, x ∈ UniqAppend a b ↔ x ∈ a ∨ x ∈ b) ∧
    (a.Nodup → b.Nodup →
      (UniqAppend a b).Nodup ∧
      max a.length b.length ≤ (UniqAppend a b).length ∧
      (UniqAppend a b).length ≤ a.length + b.length) := by
  have hform : UniqAppend a b = a ++ b.filter (fun e => !(a.contains e)) :=
    uniqAppend_closed a b a
  refine ⟨hform, ?_, ?_⟩
  · intro x
    rw [hform]
    simp only [List.mem_append, List.mem_filter]
    constructor
    · rintro (hx | ⟨hxb, _⟩)
      · exact Or.inl hx
      · exact Or.inr hxb
    · rintro (hx | hx)
      · exact Or.inl hx
      · by_cases hxa : x ∈ a
        · exact Or.inl hxa
        · exact Or.inr ⟨hx, by simp [contains_iff, hxa]⟩
  · intro ha hb
    have hnd : (UniqAppend a b).Nodup := by
      rw [hform]
      refine List.Nodup.append ha (hb.filter _) ?_
      intro x hxa hxf
      have hmem := (List.mem_filter.mp hxf).2
      simp only [Bool.not_eq_true', contains_iff] at hmem
      · exact absurd hxa (by simpa [contains_iff] using hmem)
    refine ⟨hnd, ?_, ?_⟩
    · rw [hform, List.length_append]
      apply max_le
      · exact Nat.le_add_right _ _
      · have hlen : (b.filter (fun e => a.contains e)).length
            + (b.filter (fun e => !(a.contains e))).length = b.length := by
          have := (List.filter_append_perm (fun e => a.contains e) b).length_eq
          simpa [List.length_append] using this
        have hsub : (b.filter (fun e => a.contains e)) ⊆ a := by
          intro x hx
          have := (List.mem_filter.mp hx).2
          simpa [contains_iff] using this
        have hle : (b.filter (fun e => a.contains e)).length ≤ a.length :=
          ((hb.filter _).subperm hsub).length_le
        omega
    · rw [hform, List.length_append]
      have := List.length_filter_le (fun e => !(a.contains e)) b
      omega

/-- Witness for the amended C3 at concrete duplicate-free inputs. -/
theorem uniqAppend_spec_witness :
    UniqAppend ["a"] ["b", "a"] = ["a", "b"] ∧
    (UniqAppend ["a"] ["b", "a"]).Nodup ∧
    max (List.length ["a"]) (List.length ["b", "a"]) ≤ (UniqAppend ["a"] ["b", "a"]).length := by
  have h3 := (uniqAppend_spec ["a"] ["b", "a"]).2.2 (by decide) (by decide)
  exact ⟨by decide, h3.1, h3.2.1⟩

/-- Evaluating the replace-with-last-and-shrink step below the shrunk length:
position j receives the last element, other positions are unchanged. -/
theorem getD_set_dropLast (a : List String) (j m : Nat) (w : String) (hm : m < a.length - 1) :
    ((a.set j w).dropLast).getD m "" = if j = m then w else a.getD m "" := by
  have hm2 : m < ((a.set j w).dropLast).length := by
    simp only [List.length_dropLast, List.length_set]; omega
  rw [List.getD_eq_getElem _ _ hm2, List.getElem_dropLast, List.getElem_set]
  by_cases hjm : j = m
  · rw [if_pos hjm, if_pos hjm]
  · rw [if_neg hjm, if_neg hjm, List.getD_eq_getElem _ _ (by omega)]

/-- Indexing with a default inside the bounds produces an element of the
list. -/
theorem getD_mem_of_lt (l : List String) (k : Nat) (h : k < l.length) : l.getD k "" ∈ l := by
  rw [List.getD_eq_getElem _ _ h]
  exact List.getElem_mem _

/-- The inner loop never modifies positions before its scan index. -/
theorem dedupInner_getD_lt (a : List String) (i j : Nat) :
    ∀ k, k < j → (dedupInner a i j).getD k "" = a.getD k "" := by
  induction a, i, j using dedupInner.induct with
  | case1 a i j h heq ih =>
    intro k hk
    rw [dedupInner, dif_pos h, if_pos heq, ih k hk,
      getD_set_dropLast a j k _ (by omega), if_neg (by omega)]
  | case2 a i j h heq ih =>
    intro k hk
    rw [dedupInner, dif_pos h, if_neg heq, ih k (by omega)]
  | case3 a i j h =>
    intro k hk
    rw [dedupInner, dif_neg h]

/-- The inner loop never shrinks the slice below its scan index. -/
theorem dedupInner_le_length (a : List String) (i j : Nat) :
    j ≤ a.length → j ≤ (dedupInner a i j).length := by
  induction a, i, j using dedupInner.induct with
  | case1 a i j h heq ih =>
    intro _
    rw [dedupInner, dif_pos h, if_pos heq]
    apply ih
    simp only [List.length_dropLast, List.length_set]
    omega
  | case2 a i j h heq ih =>
    intro _
    rw [dedupInner, dif_pos h, if_neg heq]
    have := ih (by omega)
    omega
  | case3 a i j h =>
    intro hj
    rw [dedupInner, dif_neg h]
    exact hj

/-- Every element of the inner-loop result was an element of the input. -/
theorem dedupInner_subset (a : List String) (i j : Nat) :
    ∀ x, x ∈ dedupInner a i j → x ∈ a := by
  induction a, i, j using dedupInner.induct with
  | case1 a i j h heq ih =>
    intro x hx
    rw [dedupInner, dif_pos h, if_pos heq] at hx
    have hx3 : x ∈ a.set j (a.getD (a.length - 1) "") :=
      (List.dropLast_sublist _).subset (ih x hx)
    rcases List.mem_or_eq_of_mem_set hx3 with hxa | hxw
    · exact hxa
    · subst hxw
      rw [List.getD_eq_getElem _ _ (by omega)]
      exact List.getElem_mem _
  | case2 a i j h heq ih =>
    intro x hx
    rw [dedupInner, dif_pos h, if_neg heq] at hx
    exact ih x hx
  | case3 a i j h =>
    intro x hx
    rwa [dedupInner, dif_neg h] at hx

/-- Every element of the input survives the inner loop or was a copy of the
pivot value at position i. -/
theorem dedupInner_mem_or (a : List String) (i j : Nat) :
    i < j → ∀ x, x ∈ a → x ∈ dedupInner a i j ∨ x = a.getD i "" := by
  induction a, i, j using dedupInner.induct with
  | case1 a i j h heq ih =>
    intro hij x hx
    rw [dedupInner, dif_pos h, if_pos heq]
    have hstep : x ∈ (a.set j (a.getD (a.length - 1) "")).dropLast ∨ x = a.getD i "" := by
      obtain ⟨p, hp, hpx⟩ := List.mem_iff_getElem.mp hx
      by_cases hpj : p = j
      · right
        subst hpj
        rw [← hpx, heq, List.getD_eq_getElem _ _ h]
      · by_cases hpl : p = a.length - 1
        · left
          subst hpl
          have hjl : j < a.length - 1 := by omega
          have hlen2 : j < ((a.set j (a.getD (a.length - 1) "")).dropLast).length := by
            simp only [List.length_dropLast, List.length_set]; omega
          have hx2 : x = ((a.set j (a.getD (a.length - 1) "")).dropLast).getD j "" := by
            rw [getD_set_dropLast a j j _ hjl, if_pos rfl,
              List.getD_eq_getElem _ _ (show a.length - 1 < a.length by omega)]
            exact hpx.symm
          rw [hx2]
          exact getD_mem_of_lt _ j hlen2
        · left
          have hlen2 : p < ((a.set j (a.getD (a.length - 1) "")).dropLast).length := by
            simp only [List.length_dropLast, List.length_set]; omega
          have hx2 : x = ((a.set j (a.getD (a.length - 1) "")).dropLast).getD p "" := by
            rw [getD_set_dropLast a j p _ (by omega), if_neg (by omega),
              List.getD_eq_getElem _ _ hp]
            exact hpx.symm
          rw [hx2]
          exact getD_mem_of_lt _ p hlen2
    rcases hstep with hx2 | hx2
    · rcases ih hij x hx2 with h3 | h3
      · exact Or.inl h3
      · right
        rwa [getD_set_dropLast a j i _ (by omega), if_neg (by omega)] at h3
    · exact Or.inr hx2
  | case2 a i j h heq ih =>
    intro hij x hx
    rw [dedupInner, dif_pos h, if_neg heq]
    exact ih (by omega) x hx
  | case3 a i j h =>
    intro hij x hx
    rw [dedupInner, dif_neg h]
    exact Or.inl hx

/-- The pivot value itself survives the inner loop. -/
theorem dedupInner_v_mem (a : List String) (i j : Nat) (hij : i < j) (hj : j ≤ a.length) :
    a.getD i "" ∈ dedupInner a i j := by
  have h1 : (dedupInner a i j).getD i "" = a.getD i "" := dedupInner_getD_lt a i j i hij
  have h2 : i < (dedupInner a i j).length :=
    lt_of_lt_of_le hij (dedupInner_le_length a i j hj)
  rw [← h1, List.getD_eq_getElem _ _ h2]
  exact List.getElem_mem _

/-- After the inner loop, no position at or beyond the scan start holds a
copy of the pivot value. -/
theorem dedupInner_suffix_ne (a : List String) (i j : Nat) :
    i < j → ∀ k, j ≤ k → k < (dedupInner a i j).length →
      (dedupInner a i j).getD k "" ≠ a.getD i "" := by
  induction a, i, j using dedupInner.induct with
  | case1 a i j h heq ih =>
    intro hij k hk hkl
    rw [dedupInner, dif_pos h, if_pos heq] at hkl ⊢
    have hne := ih hij k hk hkl
    rwa [getD_set_dropLast a j i _ (by omega), if_neg (by omega)] at hne
  | case2 a i j h heq ih =>
    intro hij k hk hkl
    rw [dedupInner, dif_pos h, if_neg heq] at hkl ⊢
    by_cases hkj : k = j
    · subst hkj
      rw [dedupInner_getD_lt a i (k + 1) k (by omega)]
      exact fun hcon => heq hcon.symm
    · exact ih (by omega) k (by omega) hkl
  | case3 a i j h =>
    intro hij k hk hkl
    rw [dedupInner, dif_neg h] at hkl
    exact absurd hkl (by omega)

/-- Values at or beyond the scan start of the inner-loop result come from
positions at or beyond the scan start of the input. -/
theorem dedupInner_suffix_src (a : List String) (i j : Nat) :
    i < j → ∀ k, j ≤ k → k < (dedupInner a i j).length →
      ∃ m, j ≤ m ∧ m < a.length ∧ (dedupInner a i j).getD k "" = a.getD m "" := by
  induction a, i, j using dedupInner.induct with
  | case1 a i j h heq ih =>
    intro hij k hk hkl
    rw [dedupInner, dif_pos h, if_pos heq] at hkl ⊢
    obtain ⟨m, hm1, hm2, hm3⟩ := ih hij k hk hkl
    rw [show ((a.set j (a.getD (a.length - 1) "")).dropLast).length = a.length - 1 by
      simp only [List.length_dropLast, List.length_set]] at hm2
    by_cases hmj : j = m
    · refine ⟨a.length - 1, by omega, by omega, ?_⟩
      rw [hm3, getD_set_dropLast a j m _ (by omega), if_pos hmj]
    · refine ⟨m, hm1, by omega, ?_⟩
      rw [hm3, getD_set_dropLast a j m _ (by omega), if_neg hmj]
  | case2 a i j h heq ih =>
    intro hij k hk hkl
    rw [dedupInner, dif_pos h, if_neg heq] at hkl ⊢
    by_cases hkj : k = j
    · subst hkj
      exact ⟨k, le_refl k, h, dedupInner_getD_lt a i (k + 1) k (by omega)⟩
    · obtain ⟨m, hm1, hm2, hm3⟩ := ih (by omega) k (by omega) hkl
      exact ⟨m, by omega, hm2, hm3⟩
  | case3 a i j h =>
    intro hij k hk hkl
    rw [dedupInner, dif_neg h] at hkl ⊢
    exact ⟨k, hk, hkl, rfl⟩

/-- Invariant of the outer loop: every position below the pivot index holds a
value distinct from every later value. -/
def DistinctBelow (a : List String) (i : Nat) : Prop :=
  ∀ p q, p < i → p < q → q < a.length → a.getD p "" ≠ a.getD q ""

/-- One outer-loop iteration extends the invariant to the next pivot. -/
theorem distinctBelow_step (a : List String) (i : Nat) (h : i < a.length - 1)
    (inv : DistinctBelow a i) : DistinctBelow (dedupInner a i (i + 1)) (i + 1) := by
  intro p q hp hpq hq
  by_cases hqi : q < i + 1
  · rw [dedupInner_getD_lt a i (i + 1) p (by omega), dedupInner_getD_lt a i (i + 1) q hqi]
    exact inv p q (by omega) hpq (by omega)
  · obtain ⟨m, hm1, hm2, hm3⟩ := dedupInner_suffix_src a i (i + 1) (by omega) q (by omega) hq
    rw [dedupInner_getD_lt a i (i + 1) p (by omega), hm3]
    by_cases hpi : p < i
    · exact inv p m hpi (by omega) hm2
    · have hpe : p = i := by omega
      subst hpe
      have hne := dedupInner_suffix_ne a p (p + 1) (by omega) q (by omega) hq
      rw [hm3] at hne
      exact fun hcon => hne hcon.symm

/-- The outer loop, started with its invariant, produces a slice whose
positions hold pairwise distinct values. -/
theorem dedupOuter_distinct (a : List String) (i : Nat) :
    DistinctBelow a i →
    ∀ p q, p < q → q < (dedupOuter a i).length →
      (dedupOuter a i).getD p "" ≠ (dedupOuter a i).getD q "" := by
  induction a, i using dedupOuter.induct with
  | case1 a i h ih =>
    intro inv
    rw [dedupOuter, dif_pos h]
    exact ih (distinctBelow_step a i h inv)
  | case2 a i h =>
    intro inv p q hpq hq
    rw [dedupOuter, dif_neg h] at hq ⊢
    exact inv p q (by omega) hpq hq

/-- Every element of the outer-loop result was an element of the input. -/
theorem dedupOuter_subset (a : List String) (i : Nat) :
    ∀ x, x ∈ dedupOuter a i → x ∈ a := by
  induction a, i using dedupOuter.induct with
  | case1 a i h ih =>
    intro x hx
    rw [dedupOuter, dif_pos h] at hx
    exact dedupInner_subset a i (i + 1) x (ih x hx)
  | case2 a i h =>
    intro x hx
    rwa [dedupOuter, dif_neg h] at hx

/-- Every element of the input is still an element of the outer-loop
result. -/
theorem dedupOuter_supset (a : List String) (i : Nat) :
    ∀ x, x ∈ a → x ∈ dedupOuter a i := by
  induction a, i using dedupOuter.induct with
  | case1 a i h ih =>
    intro x hx
    rw [dedupOuter, dif_pos h]
    rcases dedupInner_mem_or a i (i + 1) (by omega) x hx with h2 | h2
    · exact ih x h2
    · have hv : a.getD i "" ∈ dedupInner a i (i + 1) :=
        dedupInner_v_mem a i (i + 1) (by omega) (by omega)
      rw [h2]
      exact ih _ hv
  | case2 a i h =>
    intro x hx
    rwa [dedupOuter, dif_neg h]

/-- The outer loop never lengthens the slice. -/
theorem dedupOuter_length_le (a : List String) (i : Nat) :
    (dedupOuter a i).length ≤ a.length := by
  induction a, i using dedupOuter.induct with
  | case1 a i h ih =>
    rw [dedupOuter, dif_pos h]
    exact le_trans ih (dedupInner_length_le a i (i + 1))
  | case2 a i h =>
    rw [dedupOuter, dif_neg h]

/-- A list whose positions hold pairwise distinct values has no duplicate
entries. -/
theorem nodup_of_getD_pairwise (l : List String)
    (hd : ∀ p q, p < q → q < l.length → l.getD p "" ≠ l.getD q "") : l.Nodup := by
  apply List.pairwise_iff_getElem.mpr
  intro p q hp hq hpq
  have hne := hd p q hpq hq
  rwa [List.getD_eq_getElem _ _ hp, List.getD_eq_getElem _ _ hq] at hne

/-- Claim C4: Dedup preserves the set of elements, never lengthens the list,
and its result contains no duplicate entries. -/
theorem dedup_spec (a : List String) :
    (∀ x, x ∈ Dedup a ↔ x ∈ a) ∧ (Dedup a).length ≤ a.length ∧ (Dedup a).Nodup := by
  refine ⟨?_, dedupOuter_length_le a 0, ?_⟩
  · intro x
    exact ⟨fun h => dedupOuter_subset a 0 x h, fun h => dedupOuter_supset a 0 x h⟩
  · exact nodup_of_getD_pairwise _
      (dedupOuter_distinct a 0 (fun p _ hp _ _ => absurd hp (Nat.not_lt_zero p)))

/-- The inner loop is the identity when no later position duplicates the
pivot. -/
theorem dedupInner_eq_self (a : List String) (i j : Nat) :
    (∀ k, j ≤ k → k < a.length → a.getD k "" ≠ a.getD i "") → dedupInner a i j = a := by
  induction a, i, j using dedupInner.induct with
  | case1 a i j h heq ih =>
    intro hstop
    exact absurd heq.symm (hstop j le_rfl h)
  | case2 a i j h heq ih =>
    intro hstop
    rw [dedupInner, dif_pos h, if_neg heq]
    exact ih (fun k hk hkl => hstop k (by omega) hkl)
  | case3 a i j h =>
    intro _
    rw [dedupInner, dif_neg h]

/-- The outer loop is the identity on a slice whose positions already hold
pairwise distinct values. -/
theorem dedupOuter_eq_self (a : List String) (i : Nat) :
    (∀ p q, p < q → q < a.length → a.getD p "" ≠ a.getD q "") → dedupOuter a i = a := by
  induction a, i using dedupOuter.induct with
  | case1 a i h ih =>
    intro hd
    have hinner : dedupInner a i (i + 1) = a :=
      dedupInner_eq_self a i (i + 1) (fun k hk hkl => Ne.symm (hd i k (by omega) hkl))
    rw [hinner] at ih
    rw [dedupOuter, dif_pos h, hinner]
    exact ih hd
  | case2 a i h =>
    intro _
    rw [dedupOuter, dif_neg h]

/-- Claim C5: Dedup is idempotent; a second application changes nothing. -/
theorem dedup_idempotent (a : List String) : Dedup (Dedup a) = Dedup a :=
  dedupOuter_eq_self (Dedup a) 0
    (dedupOuter_distinct a 0 (fun p _ hp _ _ => absurd hp (Nat.not_lt_zero p)))
